import Mathlib

/-!
Shallow embedding of the maze solver (src/maze_solver/solve.py).

Modelling conventions, chosen to mirror the Python source:
  * A maze is a list of rows, each row a list of characters
    (Python: a list of strings).
  * A point is a pair of integers (row, column); Python arithmetic on
    row/column indices is ordinary integer arithmetic, so negative
    coordinates can arise in neighbor computation and are handled by the
    bounds check in `_is_on_grid`, exactly as in the source.
  * The Python dictionaries `g_score` and `f_score` map every grid cell to
    `float("inf")` initially and are then updated at finitely many points.
    They are modelled as functions `Point → Option Nat` where `none`
    stands for the value infinity; Python infinity arithmetic
    (`inf + 1 = inf`, `x < inf`, `inf < y` is false) is mirrored by the
    helpers below.  Lookups of keys outside the dictionary never happen in
    the source for rectangular grids, so the total-function model agrees
    with the source there.
  * The dictionary `neighbors` (predecessor links) and the returned path
    dictionary are modelled as association lists in insertion order, with
    Python dict-assignment semantics (`aupd`): overwriting a key keeps its
    original position, a new key is appended.
  * The `PriorityQueue` holds triples `(f_score, heuristic, point)` and
    pops the least element in lexicographic order, exactly the order
    Python uses to compare these tuples.  It is modelled as a list from
    which `popMin` removes the minimum.
  * The unbounded `while` loops of the source are modelled with an
    explicit fuel parameter; the search loop reports whether it finished
    by exhausting the frontier or reaching the exit (`true`) or by running
    out of fuel (`false`).  Termination with sufficient fuel is proved
    below.
-/

abbrev Point := Int × Int

def SPACE : Char := ' '

def START : Char := '^'

def EXIT : Char := 'E'

/-- Marker written over the winning path by `solve` (Python `"█"`). -/
def VISITED : Char := '█'

deriving instance DecidableEq for Except

/-- Character of the maze at integer coordinates; the default is only ever
produced out of bounds, where the source never reads (its bounds check
short-circuits first). -/
def cellAt (maze_map : List (List Char)) (row col : Int) : Char :=
  ((maze_map.getD row.toNat []).getD col.toNat '#')

/-- Python `_is_on_grid`: the point is inside the bounds given by the row
count and the length of row 0, and the cell there is an exit or a space. -/
def _is_on_grid (maze_map : List (List Char)) (point : Point) : Bool :=
  let row := point.1
  let col := point.2
  decide (0 ≤ row) && decide (row < (maze_map.length : Int)) &&
  decide (0 ≤ col) && decide (col < ((maze_map.headD []).length : Int)) &&
  (cellAt maze_map row col == EXIT || cellAt maze_map row col == SPACE)

/-- Python `_get_neighbors`: the four axis-adjacent points, in the order of
the source (down, up, right, left), filtered by `_is_on_grid`. -/
def _get_neighbors (maze_map : List (List Char)) (point : Point) : List Point :=
  let row := point.1
  let col := point.2
  [(row + 1, col), (row - 1, col), (row, col + 1), (row, col - 1)].filter
    (fun n_point => _is_on_grid maze_map n_point)

/-- Python `_get_path_cost`: the Manhattan distance between two points. -/
def _get_path_cost (start destination : Point) : Nat :=
  (start.1 - destination.1).natAbs + (start.2 - destination.2).natAbs

/-- Comparison of a finite candidate cost with a possibly-infinite stored
cost (`none` is Python `float("inf")`). -/
def ltInf (a : Nat) (b : Option Nat) : Bool :=
  match b with
  | none => true
  | some bv => a < bv

/-- Python dict assignment on an association list: an existing key keeps
its position and gets the new value, a fresh key is appended. -/
def aupd (l : List (Point × Point)) (k v : Point) : List (Point × Point) :=
  if (List.lookup k l).isSome then
    l.map (fun kv => if kv.1 = k then (k, v) else kv)
  else
    l ++ [(k, v)]

/-- Entries of the priority queue: (f_score, heuristic to exit, point). -/
abbrev Entry := Nat × Nat × Point

/-- Lexicographic order on queue entries, the order in which Python
compares the tuples `(f_score, heuristic, point)`. -/
def entLt (a b : Entry) : Bool :=
  a.1 < b.1 ||
  (a.1 == b.1 && (a.2.1 < b.2.1 ||
    (a.2.1 == b.2.1 && (a.2.2.1 < b.2.2.1 ||
      (a.2.2.1 == b.2.2.1 && a.2.2.2 < b.2.2.2)))))

/-- Remove the least entry from the queue (Python `PriorityQueue.get`). -/
def popMin (q : List Entry) : Option (Entry × List Entry) :=
  match q with
  | [] => none
  | x :: xs =>
    let m := xs.foldl (fun a b => if entLt b a then b else a) x
    some (m, (x :: xs).erase m)

/-- State of the A* loop in `_get_path`. -/
structure AState where
  g : Point → Option Nat
  f : Point → Option Nat
  queue : List Entry
  nbrs : List (Point × Point)

/-- Body of the inner `for` loop of `_get_path`: try to relax one neighbor
`np` of the popped point `cur`.  When `g cur` is infinite the tentative
f-score is infinite as well and the guard `temp_f < f[neighbor]` is false,
so nothing changes (Python float-infinity arithmetic). -/
def relaxOne (exit_point cur : Point) (st : AState) (np : Point) : AState :=
  match st.g cur with
  | none => st
  | some gc =>
    let temp_g := gc + 1
    let temp_f := temp_g + _get_path_cost np exit_point
    if ltInf temp_f (st.f np) then
      { g := fun q => if q = np then some temp_g else st.g q
        f := fun q => if q = np then some temp_f else st.f q
        queue := st.queue ++ [(temp_f, _get_path_cost np exit_point, np)]
        nbrs := aupd st.nbrs np cur }
    else st

/-- The `while not discovered_points.empty()` loop of `_get_path`, with
fuel.  The boolean is `true` when the loop finished for one of the two
reasons the source can finish (frontier exhausted, or exit popped) and
`false` when the fuel ran out first. -/
def astarLoop (maze_map : List (List Char)) (exit_point : Point) :
    Nat → AState → AState × Bool
  | 0, st => (st, false)
  | fuel + 1, st =>
    match popMin st.queue with
    | none => (st, true)
    | some (ent, rest) =>
      let current_pos := ent.2.2
      if current_pos = exit_point then ({ st with queue := rest }, true)
      else
        astarLoop maze_map exit_point fuel
          ((_get_neighbors maze_map current_pos).foldl
            (relaxOne exit_point current_pos) { st with queue := rest })

/-- Initial state of `_get_path`: all scores infinite except the starting
point, one queue entry for the starting point, no predecessor links. -/
def initState (starting_point exit_point : Point) : AState :=
  let h := _get_path_cost starting_point exit_point
  { g := fun p => if p = starting_point then some 0 else none
    f := fun p => if p = starting_point then some h else none
    queue := [(h, h, starting_point)]
    nbrs := [] }

/-- One step of the `while cell != starting_point` loop of
`_trace_path_from_exit`, with fuel.  A missing key would be a Python
`KeyError`; it cannot happen for the predecessor maps `_get_path` builds
(proved below), and the model then returns the map built so far. -/
def trace_go (neighbors : List (Point × Point)) (starting_point : Point) :
    Nat → Point → List (Point × Option Point) → List (Point × Option Point)
  | 0, _, acc => acc
  | fuel + 1, cell, acc =>
    if cell = starting_point then acc
    else
      match List.lookup cell neighbors with
      | none => acc
      | some pred => trace_go neighbors starting_point fuel pred (acc ++ [(pred, some cell)])

/-- Python `_trace_path_from_exit`.  The fuel `neighbors.length + 1` is
enough for every map `_get_path` builds, because the walk visits distinct
keys of `neighbors` (proved below). -/
def _trace_path_from_exit (neighbors : List (Point × Point))
    (exit_point starting_point : Point) : List (Point × Option Point) :=
  if (List.lookup exit_point neighbors).isSome then
    trace_go neighbors starting_point (neighbors.length + 1) exit_point [(exit_point, none)]
  else []

/-- Fuel given to the search loop; far more than the small mazes of the
repository ever use, and the termination theorem below shows some finite
fuel always suffices. -/
def pathFuel (maze_map : List (List Char)) : Nat :=
  let n := maze_map.length * (maze_map.headD []).length
  (n + 2) * (n + maze_map.length + (maze_map.headD []).length + 2) + 2

/-- Python `_get_path`: run the A* loop, then trace the path back from the
exit point. -/
def _get_path (maze_map : List (List Char)) (starting_point exit_point : Point) :
    List (Point × Option Point) :=
  let final := astarLoop maze_map exit_point (pathFuel maze_map)
    (initState starting_point exit_point)
  _trace_path_from_exit final.1.nbrs exit_point starting_point

/-- The four border scans of `_get_openings`, in source order: first
column, last column, first row, last row.  Python indexes `row[0]` and
`row[len(row) - 1]`, which would raise on an empty row; the defaults below
are only reached in that degenerate case. -/
def _get_openings_list (maze_map : List (List Char)) (character : Char) : List Point :=
  let in_first_col := maze_map.enum.filterMap
    (fun ir => if ir.2.headD '#' = character then some ((ir.1 : Int), 0) else none)
  let in_last_col := maze_map.enum.filterMap
    (fun ir => if ir.2.getLastD '#' = character then
      some ((ir.1 : Int), (ir.2.length : Int) - 1) else none)
  let in_first_row := (maze_map.headD []).enum.filterMap
    (fun jc => if jc.2 = character then some ((0 : Int), (jc.1 : Int)) else none)
  let in_last_row := (maze_map.getLastD []).enum.filterMap
    (fun jc => if jc.2 = character then
      some (((maze_map.length : Int) - 1), (jc.1 : Int)) else none)
  in_first_col ++ in_last_col ++ in_first_row ++ in_last_row

/-- Python `_get_openings`: the border scan, raising `NotSolvableError`
(modelled as `Except.error` with the formatted message) when empty. -/
def _get_openings (maze_map : List (List Char)) (character : Char) :
    Except String (List Point) :=
  let openings := _get_openings_list maze_map character
  if openings.isEmpty then
    Except.error ("Maze not solvable: Missing " ++ character.toString)
  else Except.ok openings

/-- Python `find_paths`: for every starting opening and every exit opening
run the search, keep non-empty paths whose move count (length minus one)
is at most `max_moves`. -/
def find_paths (maze_map : List (List Char)) (max_moves : Int) :
    Except String (List (List (Point × Option Point))) := do
  let starts ← _get_openings maze_map START
  let exits ← _get_openings maze_map EXIT
  pure (starts.foldl (fun acc starting_point =>
    exits.foldl (fun acc2 exit_point =>
      let path := _get_path maze_map starting_point exit_point
      if path.isEmpty then acc2
      else if (path.length : Int) - 1 ≤ max_moves then acc2 ++ [path]
      else acc2) acc) [])

/-- Python `min(solutions, key=len)` on a non-empty list (first minimum
wins); the source substitutes `[]` for an empty candidate list. -/
def pymin (solutions : List (List (Point × Option Point))) : List (Point × Option Point) :=
  match solutions with
  | [] => []
  | x :: rest => rest.foldl (fun best p => if p.length < best.length then p else best) x

/-- The inner rendering loop of `solve` on one row: every cell whose
coordinate is a key of the winning path becomes the visited marker. -/
def renderRow (best_path : List (Point × Option Point)) (i : Int) :
    Int → List Char → List Char
  | _, [] => []
  | j, c :: cs =>
    (if (List.lookup (i, j) best_path).isSome then VISITED else c) ::
      renderRow best_path i (j + 1) cs

/-- The outer rendering loop of `solve` over all rows. -/
def renderRows (best_path : List (Point × Option Point)) :
    Int → List (List Char) → List (List Char)
  | _, [] => []
  | i, row :: rows => renderRow best_path i 0 row :: renderRows best_path (i + 1) rows

/-- Core of Python `solve` after the file has been read: enumerate
candidate paths, pick the shortest (or `[]`), render it over the grid. -/
def solve (maze_map : List (List Char)) (max_moves : Int) :
    Except String (List (Point × Option Point) × List (List Char)) := do
  let solutions ← find_paths maze_map max_moves
  let best_path := pymin solutions
  pure (best_path, renderRows best_path 0 maze_map)

/-- The move count `main` reports: the number of visited-marker cells in
the rendered grid, minus two. -/
def countVisited (maze_map : List (List Char)) : Nat :=
  (maze_map.map (fun row => row.count VISITED)).sum

/-- Walk a predecessor map from a point by repeatedly looking the current
point up and moving to the stored value, collecting the visited points;
the walk stops at the absent sentinel (or at a missing key). -/
def followValues (m : List (Point × Option Point)) : Nat → Point → List Point
  | 0, _ => []
  | fuel + 1, p =>
    match List.lookup p m with
    | some (some q) => p :: followValues m fuel q
    | some none => [p]
    | none => [p]

/-- A grid is rectangular when every row has the length of row 0. -/
def Rectangular (maze_map : List (List Char)) : Prop :=
  ∀ row ∈ maze_map, row.length = (maze_map.headD []).length

instance (maze_map : List (List Char)) : Decidable (Rectangular maze_map) :=
  List.decidableBAll _ maze_map

/-- The maze of the specification scenario and of the repository tests. -/
def mazeA : List (List Char) :=
  ["######E#".toList,
   "#      #".toList,
   "# #### #".toList,
   "# #### #".toList,
   "#      #".toList,
   "######^#".toList]

/-! ### Characterization of find_paths -/

/-- The candidate list one (start, exit) pair contributes to `find_paths`:
the discovered path when it is non-empty and within the move budget,
nothing otherwise. -/
def keptOne (maze_map : List (List Char)) (max_moves : Int) (s e : Point) :
    List (List (Point × Option Point)) :=
  if (_get_path maze_map s e).isEmpty then []
  else if (((_get_path maze_map s e).length : Int) - 1 ≤ max_moves) then [_get_path maze_map s e]
  else []

theorem foldl_append_flatMap {α β : Type} (g : β → List α) (l : List β) :
    ∀ acc : List α, l.foldl (fun a x => a ++ g x) acc = acc ++ l.flatMap g := by
  induction l with
  | nil => intro acc; simp
  | cons x xs ih => intro acc; simp [ih]

theorem inner_foldl_eq (maze_map : List (List Char)) (max_moves : Int) (s : Point)
    (exits : List Point) : ∀ acc,
    exits.foldl (fun acc2 exit_point =>
      let path := _get_path maze_map s exit_point
      if path.isEmpty then acc2
      else if (path.length : Int) - 1 ≤ max_moves then acc2 ++ [path]
      else acc2) acc = acc ++ exits.flatMap (keptOne maze_map max_moves s) := by
  induction exits with
  | nil => intro acc; simp
  | cons e es ih =>
    intro acc
    rw [List.foldl_cons, ih, List.flatMap_cons]
    have hstep : (let path := _get_path maze_map s e
        if path.isEmpty then acc
        else if (path.length : Int) - 1 ≤ max_moves then acc ++ [path]
        else acc) = acc ++ keptOne maze_map max_moves s e := by
      simp only [keptOne]
      split
      · simp
      · split <;> simp
    rw [hstep, List.append_assoc]

theorem outer_foldl_eq (maze_map : List (List Char)) (max_moves : Int)
    (starts exits : List Point) : ∀ acc,
    starts.foldl (fun acc starting_point =>
      exits.foldl (fun acc2 exit_point =>
        let path := _get_path maze_map starting_point exit_point
        if path.isEmpty then acc2
        else if (path.length : Int) - 1 ≤ max_moves then acc2 ++ [path]
        else acc2) acc) acc =
      acc ++ starts.flatMap (fun s => exits.flatMap (keptOne maze_map max_moves s)) := by
  induction starts with
  | nil => intro acc; simp
  | cons s ss ih =>
    intro acc
    rw [List.foldl_cons, ih, inner_foldl_eq, List.flatMap_cons, List.append_assoc]

theorem get_openings_ok (maze_map : List (List Char)) (character : Char)
    (h : _get_openings_list maze_map character ≠ []) :
    _get_openings maze_map character = Except.ok (_get_openings_list maze_map character) := by
  unfold _get_openings
  simp [List.isEmpty_iff, h]

theorem find_paths_eq_ok (maze_map : List (List Char)) (max_moves : Int)
    (h1 : _get_openings_list maze_map START ≠ [])
    (h2 : _get_openings_list maze_map EXIT ≠ []) :
    find_paths maze_map max_moves =
      Except.ok ((_get_openings_list maze_map START).flatMap (fun s =>
        (_get_openings_list maze_map EXIT).flatMap (keptOne maze_map max_moves s))) := by
  unfold find_paths
  rw [get_openings_ok _ _ h1, get_openings_ok _ _ h2]
  show Except.ok _ = _
  rw [outer_foldl_eq]
  simp

theorem get_openings_err (maze_map : List (List Char)) (character : Char)
    (h : _get_openings_list maze_map character = []) :
    _get_openings maze_map character =
      Except.error ("Maze not solvable: Missing " ++ character.toString) := by
  unfold _get_openings
  simp [List.isEmpty_iff, h]

theorem find_paths_error_start (maze_map : List (List Char)) (max_moves : Int) (msg : String)
    (h : _get_openings maze_map START = Except.error msg) :
    find_paths maze_map max_moves = Except.error msg := by
  unfold find_paths
  rw [h]
  rfl

theorem find_paths_error_exit (maze_map : List (List Char)) (max_moves : Int) (msg : String)
    (h1 : _get_openings_list maze_map START ≠ [])
    (h : _get_openings maze_map EXIT = Except.error msg) :
    find_paths maze_map max_moves = Except.error msg := by
  unfold find_paths
  rw [get_openings_ok _ _ h1, h]
  rfl

theorem find_paths_ok_elim (maze_map : List (List Char)) (max_moves : Int)
    (L : List (List (Point × Option Point)))
    (h : find_paths maze_map max_moves = Except.ok L) :
    _get_openings_list maze_map START ≠ [] ∧ _get_openings_list maze_map EXIT ≠ [] ∧
      L = (_get_openings_list maze_map START).flatMap (fun s =>
        (_get_openings_list maze_map EXIT).flatMap (keptOne maze_map max_moves s)) := by
  by_cases h1 : _get_openings_list maze_map START = []
  · rw [find_paths_error_start maze_map max_moves _ (get_openings_err _ _ h1)] at h
    cases h
  by_cases h2 : _get_openings_list maze_map EXIT = []
  · rw [find_paths_error_exit maze_map max_moves _ h1 (get_openings_err _ _ h2)] at h
    cases h
  refine ⟨h1, h2, ?_⟩
  rw [find_paths_eq_ok maze_map max_moves h1 h2] at h
  cases h
  rfl

theorem mem_keptOne (maze_map : List (List Char)) (max_moves : Int) (s e : Point)
    (p : List (Point × Option Point)) :
    p ∈ keptOne maze_map max_moves s e ↔
      p = _get_path maze_map s e ∧ p ≠ [] ∧ (p.length : Int) - 1 ≤ max_moves := by
  unfold keptOne
  split
  · rename_i hemp
    rw [List.isEmpty_iff] at hemp
    simp only [List.not_mem_nil, false_iff]
    rintro ⟨rfl, hne, _⟩
    exact hne hemp
  · rename_i hemp
    rw [List.isEmpty_iff] at hemp
    split
    · rename_i hle
      simp only [List.mem_singleton]
      constructor
      · rintro rfl; exact ⟨rfl, hemp, hle⟩
      · rintro ⟨rfl, _, _⟩; rfl
    · rename_i hgt
      simp only [List.not_mem_nil, false_iff]
      rintro ⟨rfl, _, hle⟩
      exact hgt hle

/-! ### Border scans and openings -/

theorem filterMap_if_enum_eq_nil {α β : Type} (P : α → Prop) [DecidablePred P]
    (g : Nat × α → β) (l : List α) :
    l.enum.filterMap (fun ir => if P ir.2 then some (g ir) else none) = [] ↔
      ∀ row ∈ l, ¬ P row := by
  rw [List.filterMap_eq_nil]
  constructor
  · intro h row hrow hP
    have hrow2 : row ∈ l.enum.map Prod.snd := by rw [List.enum_map_snd]; exact hrow
    obtain ⟨ir, hir, hsnd⟩ := List.mem_map.mp hrow2
    have h2 := h ir hir
    rw [hsnd, if_pos hP] at h2
    cases h2
  · intro h ir hir
    have hmem : ir.2 ∈ l := by
      rw [← List.enum_map_snd l]
      exact List.mem_map_of_mem Prod.snd hir
    rw [if_neg (h ir.2 hmem)]

theorem openings_list_eq_nil_iff (maze_map : List (List Char)) (character : Char) :
    _get_openings_list maze_map character = [] ↔
      (∀ row ∈ maze_map, ¬ row.headD '#' = character) ∧
      (∀ row ∈ maze_map, ¬ row.getLastD '#' = character) ∧
      (∀ c ∈ maze_map.headD [], ¬ c = character) ∧
      (∀ c ∈ maze_map.getLastD [], ¬ c = character) := by
  unfold _get_openings_list
  simp only [List.append_eq_nil]
  have hA := filterMap_if_enum_eq_nil (fun row : List Char => row.headD '#' = character)
    (fun ir => ((ir.1 : Int), (0 : Int))) maze_map
  have hB := filterMap_if_enum_eq_nil (fun row : List Char => row.getLastD '#' = character)
    (fun ir => ((ir.1 : Int), (ir.2.length : Int) - 1)) maze_map
  have hC := filterMap_if_enum_eq_nil (fun c : Char => c = character)
    (fun jc => ((0 : Int), (jc.1 : Int))) (maze_map.headD [])
  have hD := filterMap_if_enum_eq_nil (fun c : Char => c = character)
    (fun jc => (((maze_map.length : Int) - 1), (jc.1 : Int))) (maze_map.getLastD [])
  simp only at hA hB hC hD
  rw [hA, hB, hC, hD]
  tauto

theorem headD_iff_head? {row : List Char} (h : row ≠ []) (c : Char) :
    row.headD '#' = c ↔ row.head? = some c := by
  cases row with
  | nil => exact absurd rfl h
  | cons x xs => simp

theorem getLastD_iff_getLast? {row : List Char} (h : row ≠ []) (c : Char) :
    row.getLastD '#' = c ↔ row.getLast? = some c := by
  rw [List.getLastD_eq_getLast?]
  cases hl : row.getLast? with
  | none => exact absurd (List.getLast?_eq_none_iff.mp hl) h
  | some x => simp

theorem get_openings_error_iff (maze_map : List (List Char)) (character : Char) :
    _get_openings maze_map character =
        Except.error ("Maze not solvable: Missing " ++ character.toString) ↔
      _get_openings_list maze_map character = [] := by
  constructor
  · intro h
    by_contra hne
    rw [get_openings_ok _ _ hne] at h
    cases h
  · intro h
    exact get_openings_err _ _ h

/-- C5: the opening locator fails with NotSolvableError naming the missing
glyph exactly when no cell on the four border lines carries the marker;
with at least one border match it returns a non-empty sequence, and the
error aborts the whole find_paths enumeration. -/
theorem c5_missing_marker (maze_map : List (List Char)) (character : Char)
    (hne : maze_map ≠ []) (hrows : ∀ row ∈ maze_map, row ≠ []) :
    ((_get_openings maze_map character =
        Except.error ("Maze not solvable: Missing " ++ character.toString)) ↔
      ¬ ((∃ row ∈ maze_map, row.head? = some character ∨ row.getLast? = some character) ∨
          character ∈ maze_map.headD [] ∨ character ∈ maze_map.getLastD []))
    ∧ (((∃ row ∈ maze_map, row.head? = some character ∨ row.getLast? = some character) ∨
          character ∈ maze_map.headD [] ∨ character ∈ maze_map.getLastD []) →
        ∃ l, _get_openings maze_map character = Except.ok l ∧ l ≠ [])
    ∧ (∀ (msg : String) (max_moves : Int),
        _get_openings maze_map START = Except.error msg →
        find_paths maze_map max_moves = Except.error msg) := by
  have hconv : ((∃ row ∈ maze_map, row.head? = some character ∨ row.getLast? = some character) ∨
      character ∈ maze_map.headD [] ∨ character ∈ maze_map.getLastD []) ↔
      ¬ _get_openings_list maze_map character = [] := by
    rw [openings_list_eq_nil_iff]
    constructor
    · rintro (⟨row, hrow, hh | hl⟩ | hc | hc)
      · rintro ⟨hA, -, -, -⟩
        exact hA row hrow ((headD_iff_head? (hrows row hrow) character).mpr hh)
      · rintro ⟨-, hB, -, -⟩
        exact hB row hrow ((getLastD_iff_getLast? (hrows row hrow) character).mpr hl)
      · rintro ⟨-, -, hC, -⟩
        exact hC character hc rfl
      · rintro ⟨-, -, -, hD⟩
        exact hD character hc rfl
    · intro hno
      by_contra hnb
      push_neg at hnb
      obtain ⟨hrowcond, hCcond, hDcond⟩ := hnb
      apply hno
      refine ⟨?_, ?_, ?_, ?_⟩
      · intro row hrow hh
        exact (hrowcond row hrow).1 ((headD_iff_head? (hrows row hrow) character).mp hh)
      · intro row hrow hl
        exact (hrowcond row hrow).2 ((getLastD_iff_getLast? (hrows row hrow) character).mp hl)
      · intro c hc hceq
        exact hCcond (hceq ▸ hc)
      · intro c hc hceq
        exact hDcond (hceq ▸ hc)
  refine ⟨?_, ?_, ?_⟩
  · rw [get_openings_error_iff]
    constructor
    · intro hnil hb
      exact hconv.mp hb hnil
    · intro hnb
      by_contra hne2
      exact hnb (hconv.mpr hne2)
  · intro hb
    have hne2 := hconv.mp hb
    exact ⟨_, get_openings_ok _ _ hne2, hne2⟩
  · intro msg max_moves herr
    exact find_paths_error_start maze_map max_moves msg herr

/-! ### Budget filter claims -/

/-- C4: a reachable (start, exit) pair is kept by find_paths exactly when
its move count (map size minus one) is at most max_moves; the boundary is
inclusive. -/
theorem c4_budget_filter_inclusive (maze_map : List (List Char)) (max_moves : Int) (s e : Point)
    (hs : s ∈ _get_openings_list maze_map START)
    (he : e ∈ _get_openings_list maze_map EXIT)
    (hne : _get_path maze_map s e ≠ []) :
    ∃ L, find_paths maze_map max_moves = Except.ok L ∧
      (_get_path maze_map s e ∈ L ↔
        ((_get_path maze_map s e).length : Int) - 1 ≤ max_moves) := by
  have h1 := List.ne_nil_of_mem hs
  have h2 := List.ne_nil_of_mem he
  refine ⟨_, find_paths_eq_ok maze_map max_moves h1 h2, ?_⟩
  constructor
  · intro hmem
    rcases List.mem_flatMap.mp hmem with ⟨s2, _, hmem2⟩
    rcases List.mem_flatMap.mp hmem2 with ⟨e2, _, hk⟩
    exact ((mem_keptOne _ _ _ _ _).mp hk).2.2
  · intro hb
    refine List.mem_flatMap.mpr ⟨s, hs, List.mem_flatMap.mpr ⟨e, he, ?_⟩⟩
    exact (mem_keptOne _ _ _ _ _).mpr ⟨rfl, hne, hb⟩

/-- C6: find_paths is monotonic in the budget: every candidate kept under
budget B is kept under any budget B2 at least B. -/
theorem c6_budget_monotone (maze_map : List (List Char)) (B B2 : Int) (hB : B ≤ B2)
    (L : List (List (Point × Option Point)))
    (hok : find_paths maze_map B = Except.ok L) :
    ∃ L2, find_paths maze_map B2 = Except.ok L2 ∧ ∀ p ∈ L, p ∈ L2 := by
  obtain ⟨h1, h2, hL⟩ := find_paths_ok_elim maze_map B L hok
  refine ⟨_, find_paths_eq_ok maze_map B2 h1 h2, ?_⟩
  intro p hp
  rw [hL] at hp
  rcases List.mem_flatMap.mp hp with ⟨s, hsmem, hp2⟩
  rcases List.mem_flatMap.mp hp2 with ⟨e, hemem, hk⟩
  obtain ⟨hpe, hpne, hple⟩ := (mem_keptOne _ _ _ _ _).mp hk
  exact List.mem_flatMap.mpr ⟨s, hsmem, List.mem_flatMap.mpr ⟨e, hemem,
    (mem_keptOne _ _ _ _ _).mpr ⟨hpe, hpne, le_trans hple hB⟩⟩⟩

/-! ### Coincident start and exit -/

theorem pathFuel_pos (maze_map : List (List Char)) : 0 < pathFuel maze_map := by
  unfold pathFuel
  exact Nat.lt_of_lt_of_le (by norm_num) (Nat.le_add_left 2 _)

theorem get_path_self (maze_map : List (List Char)) (s : Point) :
    _get_path maze_map s s = [] := by
  obtain ⟨k, hk⟩ := Nat.exists_eq_succ_of_ne_zero (Nat.pos_iff_ne_zero.mp (pathFuel_pos maze_map))
  unfold _get_path
  rw [hk]
  simp [astarLoop, initState, popMin, _trace_path_from_exit]

/-- C9: when the starting point and the exit point coincide, the search
returns the empty map (the no-path signal), and find_paths never keeps an
empty map, so a coincident pair never contributes a candidate. -/
theorem c9_coincident_pair (maze_map : List (List Char)) (s : Point)
    (hrect : Rectangular maze_map) (hne : maze_map ≠ []) :
    _get_path maze_map s s = [] ∧
      ∀ (max_moves : Int) (L : List (List (Point × Option Point))),
        find_paths maze_map max_moves = Except.ok L → ∀ p ∈ L, p ≠ [] := by
  refine ⟨get_path_self maze_map s, ?_⟩
  intro mm L hok p hp
  obtain ⟨h1, h2, hL⟩ := find_paths_ok_elim maze_map mm L hok
  rw [hL] at hp
  rcases List.mem_flatMap.mp hp with ⟨s2, _, hp2⟩
  rcases List.mem_flatMap.mp hp2 with ⟨e2, _, hk⟩
  exact ((mem_keptOne _ _ _ _ _).mp hk).2.1

/-! ### Rendering lemmas -/

theorem renderRow_length (best_path : List (Point × Option Point)) (i : Int) :
    ∀ (j : Int) (row : List Char), (renderRow best_path i j row).length = row.length := by
  intro j row
  induction row generalizing j with
  | nil => rfl
  | cons c cs ih => simp [renderRow, ih]

theorem renderRows_length (best_path : List (Point × Option Point)) :
    ∀ (i : Int) (maze_map : List (List Char)),
      (renderRows best_path i maze_map).length = maze_map.length := by
  intro i maze_map
  induction maze_map generalizing i with
  | nil => rfl
  | cons row rows ih => simp [renderRows, ih]

theorem renderRow_getD (best_path : List (Point × Option Point)) (i : Int) :
    ∀ (row : List Char) (j : Int) (k : Nat), k < row.length →
      (renderRow best_path i j row).getD k '#' =
        (if (List.lookup (i, j + (k : Int)) best_path).isSome then VISITED
         else row.getD k '#') := by
  intro row
  induction row with
  | nil => intro j k hk; simp at hk
  | cons c cs ih =>
    intro j k hk
    cases k with
    | zero =>
      simp only [renderRow, List.getD_cons_zero, Nat.cast_zero, add_zero]
    | succ k2 =>
      have hrec := ih (j + 1) k2 (by simpa using Nat.lt_of_succ_lt_succ hk)
      simp only [renderRow, List.getD_cons_succ]
      rw [hrec]
      have harith : j + 1 + (k2 : Int) = j + ((k2 : Nat) + 1 : Nat) := by push_cast; ring
      rw [harith]

theorem renderRows_getD (best_path : List (Point × Option Point)) :
    ∀ (maze_map : List (List Char)) (i : Int) (k : Nat), k < maze_map.length →
      (renderRows best_path i maze_map).getD k [] =
        renderRow best_path (i + (k : Int)) 0 (maze_map.getD k []) := by
  intro maze_map
  induction maze_map with
  | nil => intro i k h; simp at h
  | cons row rows ih =>
    intro i k hk
    cases k with
    | zero => simp [renderRows]
    | succ k2 =>
      simp only [renderRows, List.getD_cons_succ]
      rw [ih (i + 1) k2 (by simpa using Nat.lt_of_succ_lt_succ hk)]
      have harith : i + 1 + (k2 : Int) = i + ((k2 : Nat) + 1 : Nat) := by push_cast; ring
      rw [harith]

theorem renderRow_nil (i : Int) : ∀ (j : Int) (row : List Char), renderRow [] i j row = row := by
  intro j row
  induction row generalizing j with
  | nil => rfl
  | cons c cs ih => simp [renderRow, ih]

theorem renderRows_nil : ∀ (i : Int) (maze_map : List (List Char)),
    renderRows [] i maze_map = maze_map := by
  intro i maze_map
  induction maze_map generalizing i with
  | nil => rfl
  | cons row rows ih => simp [renderRows, renderRow_nil, ih]

theorem solve_ok_elim (maze_map : List (List Char)) (max_moves : Int)
    (bp : List (Point × Option Point)) (rend : List (List Char))
    (h : solve maze_map max_moves = Except.ok (bp, rend)) :
    ∃ sols, find_paths maze_map max_moves = Except.ok sols ∧
      bp = pymin sols ∧ rend = renderRows bp 0 maze_map := by
  unfold solve at h
  cases hfp : find_paths maze_map max_moves with
  | error msg =>
    rw [hfp] at h
    cases h
  | ok sols =>
    rw [hfp] at h
    have h2 : (Except.ok (pymin sols, renderRows (pymin sols) 0 maze_map) :
        Except String (List (Point × Option Point) × List (List Char))) =
        Except.ok (bp, rend) := h
    have h3 := Except.ok.inj h2
    have hbp : pymin sols = bp := congrArg Prod.fst h3
    have hrend : renderRows (pymin sols) 0 maze_map = rend := congrArg Prod.snd h3
    rw [hbp] at hrend
    exact ⟨sols, rfl, hbp.symm, hrend.symm⟩

/-- C7: rendering changes exactly the winning path's cells: a coordinate
that is a key of the winning map is drawn as the visited glyph, every
other cell is byte-identical to the input, and an empty winning path (in
particular an empty candidate list) leaves the grid untouched. -/
theorem c7_render_frame (maze_map : List (List Char)) (max_moves : Int)
    (bp : List (Point × Option Point)) (rend : List (List Char))
    (h : solve maze_map max_moves = Except.ok (bp, rend)) :
    rend.length = maze_map.length
    ∧ (∀ k : Nat, k < maze_map.length → (rend.getD k []).length = (maze_map.getD k []).length)
    ∧ (∀ (k j : Nat), k < maze_map.length → j < (maze_map.getD k []).length →
        (rend.getD k []).getD j '#' =
          (if (List.lookup ((k : Int), (j : Int)) bp).isSome then VISITED
           else (maze_map.getD k []).getD j '#'))
    ∧ (bp = [] → rend = maze_map)
    ∧ (∀ sols, find_paths maze_map max_moves = Except.ok sols → sols = [] →
        bp = [] ∧ rend = maze_map) := by
  obtain ⟨sols, hfp, hbp, hrend⟩ := solve_ok_elim maze_map max_moves bp rend h
  subst hrend
  refine ⟨renderRows_length bp 0 maze_map, ?_, ?_, ?_, ?_⟩
  · intro k hk
    rw [renderRows_getD bp maze_map 0 k hk, renderRow_length]
  · intro k j hk hj
    rw [renderRows_getD bp maze_map 0 k hk, renderRow_getD bp _ _ 0 j hj]
    simp only [zero_add]
  · intro hbp0
    rw [hbp0, renderRows_nil]
  · intro sols2 hfp2 hs0
    rw [hfp] at hfp2
    have hse : sols = sols2 := Except.ok.inj hfp2
    have hbp0 : bp = [] := by rw [hbp, hse, hs0]; rfl
    exact ⟨hbp0, by rw [hbp0, renderRows_nil]⟩

/-! ### Concrete scenario data -/

/-- The winning predecessor map `solve` finds on `mazeA`. -/
def bpA : List (Point × Option Point) :=
  [((0, 6), none), ((1, 6), some (0, 6)), ((2, 6), some (1, 6)), ((3, 6), some (2, 6)),
   ((4, 6), some (3, 6)), ((5, 6), some (4, 6))]

/-- The grid `solve` renders for `mazeA`. -/
def rendA : List (List Char) :=
  ["######█#".toList, "#     █#".toList, "# ####█#".toList, "# ####█#".toList,
   "#     █#".toList, "######█#".toList]

/-- A maze whose border has exit markers but no start marker (from the
repository test suite). -/
def mazeNoStart : List (List Char) :=
  ["######".toList, "#######E".toList, "#######E".toList, "########".toList]

/-- C1: on the scenario grid, the single-pair search from (4,6) to (1,6)
returns exactly the four-entry predecessor map of the specification. -/
theorem c1_scenario_path :
    _get_path mazeA (4, 6) (1, 6) =
      [((1, 6), none), ((2, 6), some (1, 6)), ((3, 6), some (2, 6)), ((4, 6), some (3, 6))] := by
  decide

/-- C2 counterexample: on the scenario grid the returned map is non-empty,
yet the walk that starts from the exit point (1,6) and repeatedly follows
the stored values stops immediately at the exit (whose value is the absent
sentinel); it does not terminate at the starting point (4,6) and does not
traverse the four entries. -/
theorem c2_counterexample :
    ¬ (_get_path mazeA (4, 6) (1, 6) = [] ∨
        ((followValues (_get_path mazeA (4, 6) (1, 6))
            (_get_path mazeA (4, 6) (1, 6)).length ((1 : Int), (6 : Int))).Perm
            ((_get_path mazeA (4, 6) (1, 6)).map Prod.fst) ∧
          (followValues (_get_path mazeA (4, 6) (1, 6))
            (_get_path mazeA (4, 6) (1, 6)).length ((1 : Int), (6 : Int))).getLast? =
            some ((4 : Int), (6 : Int)))) := by
  decide

/-- C3 exhibit: on the scenario grid, the rendered winning path has 6
visited-marker cells and the winning map has 6 entries, so the move count
derived by the program (visited-marker count minus 2, i.e. 4) differs from
the move count used by the budget filter (map size minus 1, i.e. 5): the
subtract-2 report in main is off by one. -/
theorem c3_move_count_mismatch :
    solve mazeA 38 = Except.ok (bpA, rendA) ∧
      countVisited rendA = 6 ∧ bpA.length - 1 = 5 ∧
      countVisited rendA - 2 ≠ bpA.length - 1 := by
  exact ⟨by decide, by decide, by decide, by decide⟩

/-! ### Association list lemmas -/

theorem lookup_cons_self {β : Type} (p : Point) (a2 : β) (l : List (Point × β)) :
    List.lookup p ((p, a2) :: l) = some a2 := by
  simp

theorem lookup_cons_ne {β : Type} (p a1 : Point) (a2 : β) (l : List (Point × β)) (h : p ≠ a1) :
    List.lookup p ((a1, a2) :: l) = List.lookup p l := by
  rw [List.lookup_cons, beq_eq_false_iff_ne.mpr h]

theorem lookup_isSome_iff (l : List (Point × Point)) (p : Point) :
    (List.lookup p l).isSome ↔ p ∈ l.map Prod.fst := by
  induction l with
  | nil => simp
  | cons a l ih =>
    obtain ⟨a1, a2⟩ := a
    by_cases h : p = a1
    · subst h
      rw [lookup_cons_self]
      simp
    · rw [lookup_cons_ne p a1 a2 l h]
      simp [h, ih]

theorem mem_of_lookup_eq_some {l : List (Point × Point)} {p q : Point}
    (h : List.lookup p l = some q) : (p, q) ∈ l := by
  induction l with
  | nil => cases h
  | cons a l ih =>
    obtain ⟨a1, a2⟩ := a
    by_cases hp : p = a1
    · subst hp
      rw [lookup_cons_self] at h
      cases h
      exact List.mem_cons_self _ _
    · rw [lookup_cons_ne p a1 a2 l hp] at h
      exact List.mem_cons_of_mem _ (ih h)

theorem lookup_map_replace_self (l : List (Point × Point)) (k v : Point)
    (h : (List.lookup k l).isSome) :
    List.lookup k (l.map (fun kv => if kv.1 = k then (k, v) else kv)) = some v := by
  induction l with
  | nil => simp at h
  | cons a l ih =>
    obtain ⟨a1, a2⟩ := a
    by_cases hak : a1 = k
    · subst hak
      simp only [List.map_cons, if_true]
      exact lookup_cons_self a1 v _
    · have hc : ¬ ((a1, a2).1 = k) := hak
      simp only [List.map_cons]
      rw [if_neg hc]
      rw [lookup_cons_ne k a1 a2 l (fun h2 => hak h2.symm)] at h
      rw [lookup_cons_ne k a1 a2 _ (fun h2 => hak h2.symm)]
      exact ih h

theorem lookup_map_replace_ne (l : List (Point × Point)) (k v p : Point) (h : p ≠ k) :
    List.lookup p (l.map (fun kv => if kv.1 = k then (k, v) else kv)) = List.lookup p l := by
  induction l with
  | nil => simp
  | cons a l ih =>
    obtain ⟨a1, a2⟩ := a
    by_cases hak : a1 = k
    · subst hak
      simp only [List.map_cons, if_true]
      rw [lookup_cons_ne p a1 v _ h, lookup_cons_ne p a1 a2 l h, ih]
    · have hc : ¬ ((a1, a2).1 = k) := hak
      simp only [List.map_cons]
      rw [if_neg hc]
      by_cases hpa : p = a1
      · subst hpa
        rw [lookup_cons_self, lookup_cons_self]
      · rw [lookup_cons_ne p a1 a2 _ hpa, lookup_cons_ne p a1 a2 l hpa, ih]

theorem lookup_aupd_self (l : List (Point × Point)) (k v : Point) :
    List.lookup k (aupd l k v) = some v := by
  unfold aupd
  split
  · rename_i hsome
    exact lookup_map_replace_self l k v hsome
  · rename_i hnone
    rw [List.lookup_append]
    cases hlk : List.lookup k l with
    | some q => exact absurd (by rw [hlk]; rfl) hnone
    | none =>
      simp only [Option.none_or]
      exact lookup_cons_self k v []

theorem lookup_aupd_ne (l : List (Point × Point)) (k v p : Point) (h : p ≠ k) :
    List.lookup p (aupd l k v) = List.lookup p l := by
  unfold aupd
  split
  · exact lookup_map_replace_ne l k v p h
  · rw [List.lookup_append]
    cases hlk : List.lookup p l with
    | some q => rfl
    | none =>
      simp only [Option.none_or]
      rw [lookup_cons_ne p k v [] h]
      rfl

theorem lookup_aupd_isSome (l : List (Point × Point)) (k v p : Point)
    (h : (List.lookup p l).isSome) : (List.lookup p (aupd l k v)).isSome := by
  by_cases hpk : p = k
  · subst hpk
    rw [lookup_aupd_self]
    rfl
  · rw [lookup_aupd_ne l k v p hpk]
    exact h

theorem aupd_keys_nodup (l : List (Point × Point)) (k v : Point)
    (h : (l.map Prod.fst).Nodup) : ((aupd l k v).map Prod.fst).Nodup := by
  unfold aupd
  split
  · have heq : (l.map (fun kv => if kv.1 = k then (k, v) else kv)).map Prod.fst =
        l.map Prod.fst := by
      rw [List.map_map]
      apply List.map_congr_left
      intro a _
      by_cases hk : a.1 = k
      · simp [Function.comp, hk]
      · simp [Function.comp, hk]
    rw [heq]
    exact h
  · rename_i hnone
    rw [List.map_append]
    simp only [List.map_cons, List.map_nil]
    rw [List.nodup_append]
    refine ⟨h, List.nodup_singleton k, ?_⟩
    intro a ha hb
    simp only [List.mem_singleton] at hb
    subst hb
    rw [← lookup_isSome_iff] at ha
    exact hnone ha

theorem mem_aupd {l : List (Point × Point)} {k v : Point} {pq : Point × Point}
    (h : pq ∈ aupd l k v) : pq = (k, v) ∨ (pq ∈ l ∧ pq.1 ≠ k) := by
  unfold aupd at h
  split at h
  · obtain ⟨a, ha, heq⟩ := List.mem_map.mp h
    by_cases hk : a.1 = k
    · rw [if_pos hk] at heq
      exact Or.inl heq.symm
    · rw [if_neg hk] at heq
      subst heq
      exact Or.inr ⟨ha, hk⟩
  · rename_i hnone
    rcases List.mem_append.mp h with h2 | h2
    · refine Or.inr ⟨h2, ?_⟩
      intro hk
      apply hnone
      rw [lookup_isSome_iff, ← hk]
      exact List.mem_map_of_mem Prod.fst h2
    · simp only [List.mem_singleton] at h2
      exact Or.inl h2

/-! ### Priority queue lemmas -/

theorem foldl_min_mem (a : Entry) (l : List Entry) :
    l.foldl (fun x b => if entLt b x then b else x) a ∈ a :: l := by
  induction l generalizing a with
  | nil => simp
  | cons b l ih =>
    simp only [List.foldl_cons]
    by_cases h : entLt b a
    · rw [if_pos h]
      rcases List.mem_cons.mp (ih b) with h2 | h2
      · rw [h2]; exact List.mem_cons_of_mem _ (List.mem_cons_self _ _)
      · exact List.mem_cons_of_mem _ (List.mem_cons_of_mem _ h2)
    · rw [if_neg h]
      rcases List.mem_cons.mp (ih a) with h2 | h2
      · rw [h2]; exact List.mem_cons_self _ _
      · exact List.mem_cons_of_mem _ (List.mem_cons_of_mem _ h2)

theorem popMin_mem {q : List Entry} {ent : Entry} {rest : List Entry}
    (h : popMin q = some (ent, rest)) : ent ∈ q := by
  unfold popMin at h
  cases q with
  | nil => cases h
  | cons a as =>
    simp only [Option.some.injEq, Prod.mk.injEq] at h
    rw [← h.1]
    exact foldl_min_mem a as

theorem popMin_rest_subset {q : List Entry} {ent : Entry} {rest : List Entry}
    (h : popMin q = some (ent, rest)) : ∀ x ∈ rest, x ∈ q := by
  unfold popMin at h
  cases q with
  | nil => cases h
  | cons a as =>
    simp only [Option.some.injEq, Prod.mk.injEq] at h
    intro x hx
    rw [← h.2] at hx
    exact List.mem_of_mem_erase hx

/-! ### Neighborhood facts -/

theorem get_path_cost_comm (a b : Point) : _get_path_cost a b = _get_path_cost b a := by
  unfold _get_path_cost
  omega

theorem get_neighbors_spec (maze_map : List (List Char)) (p np : Point)
    (h : np ∈ _get_neighbors maze_map p) :
    _is_on_grid maze_map np = true ∧ _get_path_cost np p = 1 := by
  unfold _get_neighbors at h
  rw [List.mem_filter] at h
  obtain ⟨hmem, hgrid⟩ := h
  refine ⟨hgrid, ?_⟩
  simp only [List.mem_cons, List.not_mem_nil, or_false] at hmem
  obtain ⟨p1, p2⟩ := p
  rcases hmem with rfl | rfl | rfl | rfl <;> (unfold _get_path_cost; simp only []; omega)

/-! ### The search-loop invariant -/

/-- Invariant maintained by the A* loop of `_get_path`: the f-scores are
the g-scores shifted by the heuristic, the starting point never receives a
predecessor link, predecessor keys are distinct traversable grid cells,
each link points to an adjacent point of strictly smaller g-score that is
the starting point or another key, and every queued point is the starting
point or a key. -/
structure LoopInv (maze_map : List (List Char)) (starting_point exit_point : Point)
    (st : AState) : Prop where
  start_not_key : List.lookup starting_point st.nbrs = none
  g_start : st.g starting_point = some 0
  fg : ∀ p : Point, st.f p = (st.g p).map (fun v => v + _get_path_cost p exit_point)
  keys_nodup : (st.nbrs.map Prod.fst).Nodup
  queue_keys : ∀ ent ∈ st.queue, ent.2.2 = starting_point ∨
    (List.lookup ent.2.2 st.nbrs).isSome
  entries : ∀ pq ∈ st.nbrs, ∃ gp gq, st.g pq.1 = some gp ∧ st.g pq.2 = some gq ∧ gq < gp ∧
    (pq.2 = starting_point ∨ (List.lookup pq.2 st.nbrs).isSome) ∧
    _get_path_cost pq.1 pq.2 = 1 ∧ _is_on_grid maze_map pq.1 = true

theorem relaxOne_cases (e cur : Point) (st : AState) (np : Point) :
    relaxOne e cur st np = st ∨
    ∃ gc, st.g cur = some gc ∧
      ltInf (gc + 1 + _get_path_cost np e) (st.f np) = true ∧
      relaxOne e cur st np =
        { g := fun q => if q = np then some (gc + 1) else st.g q
          f := fun q => if q = np then some (gc + 1 + _get_path_cost np e) else st.f q
          queue := st.queue ++ [(gc + 1 + _get_path_cost np e, _get_path_cost np e, np)]
          nbrs := aupd st.nbrs np cur } := by
  unfold relaxOne
  cases hgc : st.g cur with
  | none => exact Or.inl rfl
  | some gc =>
    by_cases hguard : ltInf (gc + 1 + _get_path_cost np e) (st.f np) = true
    · right
      refine ⟨gc, rfl, hguard, ?_⟩
      simp only [if_pos hguard]
    · left
      simp only [if_neg hguard]

theorem ltInf_some_iff (a b : Nat) : ltInf a (some b) = true ↔ a < b := by
  unfold ltInf
  simp

theorem relaxOne_inv (maze_map : List (List Char)) (s e : Point) (st : AState)
    (cur np : Point) (hinv : LoopInv maze_map s e st)
    (hcur : cur = s ∨ (List.lookup cur st.nbrs).isSome)
    (hgrid : _is_on_grid maze_map np = true) (hdist : _get_path_cost np cur = 1) :
    LoopInv maze_map s e (relaxOne e cur st np) := by
  rcases relaxOne_cases e cur st np with heq | ⟨gc, hgc, hguard, hupd⟩
  · rw [heq]
    exact hinv
  · rw [hupd]
    have hnps : np ≠ s := by
      intro hnp
      subst hnp
      rw [hinv.fg np, hinv.g_start] at hguard
      simp only [Option.map_some'] at hguard
      rw [ltInf_some_iff] at hguard
      omega
    have hnpcur : np ≠ cur := by
      intro hh
      subst hh
      unfold _get_path_cost at hdist
      omega
    constructor
    · show List.lookup s (aupd st.nbrs np cur) = none
      rw [lookup_aupd_ne st.nbrs np cur s (fun h2 => hnps h2.symm)]
      exact hinv.start_not_key
    · show (if s = np then some (gc + 1) else st.g s) = some 0
      rw [if_neg (fun h2 => hnps h2.symm)]
      exact hinv.g_start
    · intro p
      show (if p = np then some (gc + 1 + _get_path_cost np e) else st.f p) =
        ((if p = np then some (gc + 1) else st.g p).map fun v => v + _get_path_cost p e)
      by_cases hp : p = np
      · subst hp
        rw [if_pos rfl, if_pos rfl]
        rfl
      · rw [if_neg hp, if_neg hp]
        exact hinv.fg p
    · show ((aupd st.nbrs np cur).map Prod.fst).Nodup
      exact aupd_keys_nodup st.nbrs np cur hinv.keys_nodup
    · intro ent hent
      rcases List.mem_append.mp hent with hold | hnew
      · rcases hinv.queue_keys ent hold with h2 | h2
        · exact Or.inl h2
        · exact Or.inr (lookup_aupd_isSome st.nbrs np cur ent.2.2 h2)
      · simp only [List.mem_singleton] at hnew
        subst hnew
        right
        show (List.lookup np (aupd st.nbrs np cur)).isSome = true
        rw [lookup_aupd_self]
        rfl
    · intro pq hpq
      rcases mem_aupd hpq with rfl | ⟨hmem, hne⟩
      · refine ⟨gc + 1, gc, ?_, ?_, Nat.lt_succ_self gc, ?_, hdist, hgrid⟩
        · show (if np = np then some (gc + 1) else st.g np) = some (gc + 1)
          rw [if_pos rfl]
        · show (if cur = np then some (gc + 1) else st.g cur) = some gc
          rw [if_neg (fun h2 => hnpcur h2.symm)]
          exact hgc
        · rcases hcur with h2 | h2
          · exact Or.inl h2
          · exact Or.inr (lookup_aupd_isSome st.nbrs np cur cur h2)
      · obtain ⟨gp, gq, hgp, hgq, hlt, hor, hd, hg⟩ := hinv.entries pq hmem
        by_cases hq : pq.2 = np
        · have hgqnp : st.g np = some gq := by rw [← hq]; exact hgq
          have hfnp : st.f np = some (gq + _get_path_cost np e) := by
            rw [hinv.fg np, hgqnp]
            rfl
          rw [hfnp, ltInf_some_iff] at hguard
          refine ⟨gp, gc + 1, ?_, ?_, by omega, ?_, hd, hg⟩
          · show (if pq.1 = np then some (gc + 1) else st.g pq.1) = some gp
            rw [if_neg hne]
            exact hgp
          · show (if pq.2 = np then some (gc + 1) else st.g pq.2) = some (gc + 1)
            rw [if_pos hq]
          · right
            show (List.lookup pq.2 (aupd st.nbrs np cur)).isSome = true
            rw [hq, lookup_aupd_self]
            rfl
        · refine ⟨gp, gq, ?_, ?_, hlt, ?_, hd, hg⟩
          · show (if pq.1 = np then some (gc + 1) else st.g pq.1) = some gp
            rw [if_neg hne]
            exact hgp
          · show (if pq.2 = np then some (gc + 1) else st.g pq.2) = some gq
            rw [if_neg hq]
            exact hgq
          · rcases hor with h2 | h2
            · exact Or.inl h2
            · exact Or.inr (lookup_aupd_isSome st.nbrs np cur pq.2 h2)

theorem foldl_relax_inv (maze_map : List (List Char)) (s e cur : Point) :
    ∀ (l : List Point) (st : AState), LoopInv maze_map s e st →
      (cur = s ∨ (List.lookup cur st.nbrs).isSome) →
      (∀ np ∈ l, _is_on_grid maze_map np = true ∧ _get_path_cost np cur = 1) →
      LoopInv maze_map s e (l.foldl (relaxOne e cur) st) := by
  intro l
  induction l with
  | nil =>
    intro st h _ _
    exact h
  | cons np l ih =>
    intro st hinv hcur hl
    rw [List.foldl_cons]
    apply ih
    · exact relaxOne_inv maze_map s e st cur np hinv hcur
        (hl np (List.mem_cons_self _ _)).1 (hl np (List.mem_cons_self _ _)).2
    · rcases hcur with h2 | h2
      · exact Or.inl h2
      · right
        rcases relaxOne_cases e cur st np with heq | ⟨gc, _, _, hupd⟩
        · rw [heq]
          exact h2
        · rw [hupd]
          exact lookup_aupd_isSome st.nbrs np cur cur h2
    · intro np2 hnp2
      exact hl np2 (List.mem_cons_of_mem _ hnp2)

theorem queue_set_inv (maze_map : List (List Char)) (s e : Point) (st : AState)
    (rest : List Entry) (hinv : LoopInv maze_map s e st)
    (hsub : ∀ x ∈ rest, x ∈ st.queue) :
    LoopInv maze_map s e { st with queue := rest } := by
  constructor
  · exact hinv.start_not_key
  · exact hinv.g_start
  · exact hinv.fg
  · exact hinv.keys_nodup
  · intro ent hent
    exact hinv.queue_keys ent (hsub ent hent)
  · exact hinv.entries

theorem astarLoop_inv (maze_map : List (List Char)) (s e : Point) :
    ∀ (fuel : Nat) (st : AState), LoopInv maze_map s e st →
      LoopInv maze_map s e (astarLoop maze_map e fuel st).1 := by
  intro fuel
  induction fuel with
  | zero =>
    intro st h
    exact h
  | succ n ih =>
    intro st hinv
    rw [astarLoop]
    cases hpop : popMin st.queue with
    | none => exact hinv
    | some pr =>
      obtain ⟨ent, rest⟩ := pr
      simp only []
      by_cases hexit : ent.2.2 = e
      · rw [if_pos hexit]
        exact queue_set_inv maze_map s e st rest hinv (popMin_rest_subset hpop)
      · rw [if_neg hexit]
        apply ih
        apply foldl_relax_inv maze_map s e ent.2.2
        · exact queue_set_inv maze_map s e st rest hinv (popMin_rest_subset hpop)
        · exact hinv.queue_keys ent (popMin_mem hpop)
        · intro np hnp
          exact get_neighbors_spec maze_map ent.2.2 np hnp

theorem initState_inv (maze_map : List (List Char)) (s e : Point) :
    LoopInv maze_map s e (initState s e) := by
  constructor
  · rfl
  · show (if s = s then some 0 else none) = some 0
    rw [if_pos rfl]
  · intro p
    show (if p = s then some (_get_path_cost s e) else none) =
      ((if p = s then some 0 else none).map fun v => v + _get_path_cost p e)
    by_cases hp : p = s
    · subst hp
      rw [if_pos rfl, if_pos rfl]
      simp
    · rw [if_neg hp, if_neg hp]
      rfl
  · exact List.nodup_nil
  · intro ent hent
    left
    have hq : (initState s e).queue = [(_get_path_cost s e, _get_path_cost s e, s)] := rfl
    rw [hq] at hent
    simp only [List.mem_singleton] at hent
    rw [hent]
  · intro pq hpq
    have hn : (initState s e).nbrs = ([] : List (Point × Point)) := rfl
    rw [hn] at hpq
    simp at hpq

/-! ### The backward walk through predecessor links -/

/-- The entries `trace_go` appends while walking the predecessor links
from a cell back to the starting point. -/
inductive Walk (neighbors : List (Point × Point)) (starting_point : Point) :
    Point → List (Point × Option Point) → Prop where
  | stop : Walk neighbors starting_point starting_point []
  | step (c c2 : Point) (rest : List (Point × Option Point)) (hne : c ≠ starting_point)
      (hlk : List.lookup c neighbors = some c2)
      (hrest : Walk neighbors starting_point c2 rest) :
      Walk neighbors starting_point c ((c2, some c) :: rest)

theorem trace_go_of_walk (n : List (Point × Point)) (s : Point) :
    ∀ (c : Point) (pairs : List (Point × Option Point)), Walk n s c pairs →
      ∀ (acc : List (Point × Option Point)) (fuel : Nat), pairs.length ≤ fuel →
        trace_go n s fuel c acc = acc ++ pairs := by
  intro c pairs hw
  induction hw with
  | stop =>
    intro acc fuel _
    cases fuel with
    | zero => simp [trace_go]
    | succ f => simp [trace_go]
  | step c c2 rest hne hlk hrest ih =>
    intro acc fuel hf
    cases fuel with
    | zero => simp at hf
    | succ f =>
      simp only [trace_go, if_neg hne, hlk]
      rw [ih (acc ++ [(c2, some c)]) f (by simpa using Nat.lt_succ_iff.mp (Nat.lt_of_lt_of_le (by simp) hf))]
      simp

/-- Comparison of two possibly-infinite scores, used only as a termination
measure for the backward walk. -/
def optLt (a b : Option Nat) : Bool :=
  match a, b with
  | some x, some y => decide (x < y)
  | _, _ => false

theorem countP_le_countP {α : Type} (p q : α → Bool) :
    ∀ l : List α, (∀ a ∈ l, p a = true → q a = true) → l.countP p ≤ l.countP q := by
  intro l
  induction l with
  | nil => simp
  | cons b l ih =>
    intro h
    rw [List.countP_cons, List.countP_cons]
    have hrec := ih (fun a ha => h a (List.mem_cons_of_mem _ ha))
    by_cases hp : p b = true
    · rw [if_pos hp, if_pos (h b (List.mem_cons_self _ _) hp)]
      omega
    · rw [if_neg hp]
      by_cases hq : q b = true
      · rw [if_pos hq]; omega
      · rw [if_neg hq]; omega

theorem countP_lt_countP {α : Type} (p q : α → Bool) :
    ∀ l : List α, (∀ a ∈ l, p a = true → q a = true) →
      ∀ a0, a0 ∈ l → q a0 = true → ¬ p a0 = true → l.countP p < l.countP q := by
  intro l
  induction l with
  | nil =>
    intro _ a0 ha0
    simp at ha0
  | cons b l ih =>
    intro h a0 ha0 hq hp
    rw [List.countP_cons, List.countP_cons]
    rcases List.mem_cons.mp ha0 with rfl | hmem
    · rw [if_neg hp, if_pos hq]
      have := countP_le_countP p q l (fun a ha => h a (List.mem_cons_of_mem _ ha))
      omega
    · have hrec := ih (fun a ha => h a (List.mem_cons_of_mem _ ha)) a0 hmem hq hp
      by_cases hpb : p b = true
      · rw [if_pos hpb, if_pos (h b (List.mem_cons_self _ _) hpb)]
        omega
      · rw [if_neg hpb]
        by_cases hqb : q b = true
        · rw [if_pos hqb]; omega
        · rw [if_neg hqb]; omega

theorem walk_exists (n : List (Point × Point)) (s : Point) (g : Point → Option Nat)
    (hs : List.lookup s n = none)
    (hE : ∀ pq ∈ n, ∃ gp gq, g pq.1 = some gp ∧ g pq.2 = some gq ∧ gq < gp ∧
      (pq.2 = s ∨ (List.lookup pq.2 n).isSome)) :
    ∀ (N : Nat) (c : Point), (c = s ∨ (List.lookup c n).isSome) →
      n.countP (fun pq => optLt (g pq.1) (g c)) ≤ N →
      ∃ pairs, Walk n s c pairs ∧ pairs.length ≤ N + 1 := by
  intro N
  induction N using Nat.strong_induction_on with
  | _ N ih =>
    intro c hc hm
    rcases hc with rfl | hkey
    · exact ⟨[], Walk.stop, by simp⟩
    · have hcs : c ≠ s := by
        intro h2
        rw [h2, hs] at hkey
        cases hkey
      obtain ⟨c2, hlk⟩ := Option.isSome_iff_exists.mp hkey
      have hmem := mem_of_lookup_eq_some hlk
      obtain ⟨gp, gq, hgp, hgq, hlt, hor⟩ := hE (c, c2) hmem
      have hgp2 : g c = some gp := hgp
      have hgq2 : g c2 = some gq := hgq
      rcases hor with hc2s | hkey2
      · have hc2s2 : c2 = s := hc2s
        refine ⟨[(c2, some c)], ?_, by simp⟩
        refine Walk.step c c2 [] hcs hlk ?_
        rw [hc2s2]
        exact Walk.stop
      · have hkey2b : (List.lookup c2 n).isSome = true := hkey2
        obtain ⟨q2, hlk2⟩ := Option.isSome_iff_exists.mp hkey2b
        have hmem2 := mem_of_lookup_eq_some hlk2
        have hbig : optLt (g c2) (g c) = true := by
          rw [hgq2, hgp2]
          unfold optLt
          simpa using hlt
        have hdec : n.countP (fun pq => optLt (g pq.1) (g c2)) <
            n.countP (fun pq => optLt (g pq.1) (g c)) := by
          apply countP_lt_countP _ _ n ?_ (c2, q2) hmem2 hbig ?_
          · intro pq _ hplt
            cases hx : g pq.1 with
            | none =>
              rw [hx] at hplt
              unfold optLt at hplt
              cases hplt
            | some x =>
              rw [hx, hgq2] at hplt
              unfold optLt at hplt
              rw [hgp2]
              unfold optLt
              simp only [decide_eq_true_eq] at hplt
              simp only [decide_eq_true_eq]
              omega
          · show ¬ optLt (g c2) (g c2) = true
            rw [hgq2]
            unfold optLt
            simp
        have hpos : 0 < n.countP (fun pq => optLt (g pq.1) (g c)) := by
          rw [List.countP_pos]
          exact ⟨(c2, q2), hmem2, hbig⟩
        have hN1 : 1 ≤ N := le_trans hpos hm
        obtain ⟨rest, hwrest, hlen⟩ :=
          ih (N - 1) (by omega) c2 (Or.inr hkey2b) (by omega)
        refine ⟨(c2, some c) :: rest, Walk.step c c2 rest hcs hlk hwrest, ?_⟩
        simp only [List.length_cons]
        omega

theorem walk_start_mem (n : List (Point × Point)) (s : Point) :
    ∀ c pairs, Walk n s c pairs → c = s ∨ ∃ v, (s, v) ∈ pairs := by
  intro c pairs hw
  induction hw with
  | stop => exact Or.inl rfl
  | step c c2 rest hne hlk hrest ih =>
    right
    rcases ih with rfl | ⟨v, hv⟩
    · exact ⟨some c, List.mem_cons_self _ _⟩
    · exact ⟨v, List.mem_cons_of_mem _ hv⟩

theorem walk_values_some (n : List (Point × Point)) (s : Point) :
    ∀ c pairs, Walk n s c pairs → ∀ pv ∈ pairs, ∃ q, pv.2 = some q := by
  intro c pairs hw
  induction hw with
  | stop =>
    intro pv hpv
    simp at hpv
  | step c c2 rest hne hlk hrest ih =>
    intro pv hpv
    rcases List.mem_cons.mp hpv with rfl | hmem
    · exact ⟨c, rfl⟩
    · exact ih pv hmem

theorem walk_entry_facts (n : List (Point × Point)) (s : Point)
    (hE : ∀ pq ∈ n, _get_path_cost pq.1 pq.2 = 1 ∧
      (pq.2 = s ∨ (List.lookup pq.2 n).isSome)) :
    ∀ c pairs, Walk n s c pairs →
      ∀ pv ∈ pairs,
        (∃ q, pv.2 = some q ∧ _get_path_cost pv.1 q = 1 ∧
          (q = c ∨ ∃ pv2 ∈ pairs, q = pv2.1)) ∧
        (pv.1 = s ∨ (List.lookup pv.1 n).isSome) := by
  intro c pairs hw
  induction hw with
  | stop =>
    intro pv hpv
    simp at hpv
  | step c c2 rest hne hlk hrest ih =>
    intro pv hpv
    rcases List.mem_cons.mp hpv with rfl | hmem
    · obtain ⟨hd, hor⟩ := hE (c, c2) (mem_of_lookup_eq_some hlk)
      refine ⟨⟨c, rfl, ?_, Or.inl rfl⟩, ?_⟩
      · rw [get_path_cost_comm]
        exact hd
      · exact hor
    · obtain ⟨⟨q, hq, hd, hqor⟩, hkeyfact⟩ := ih pv hmem
      refine ⟨⟨q, hq, hd, ?_⟩, hkeyfact⟩
      rcases hqor with rfl | ⟨pv2, hpv2, rfl⟩
      · exact Or.inr ⟨(q, some c), List.mem_cons_self _ _, rfl⟩
      · exact Or.inr ⟨pv2, List.mem_cons_of_mem _ hpv2, rfl⟩

theorem walk_keys_bound (n : List (Point × Point)) (s : Point) (g : Point → Option Nat)
    (hE : ∀ pq ∈ n, ∃ gp gq, g pq.1 = some gp ∧ g pq.2 = some gq ∧ gq < gp) :
    ∀ c pairs, Walk n s c pairs → ∀ gc, g c = some gc →
      (∀ pv ∈ pairs, ∃ gv, g pv.1 = some gv ∧ gv < gc) ∧
      (pairs.map Prod.fst).Nodup := by
  intro c pairs hw
  induction hw with
  | stop =>
    intro gc _
    refine ⟨?_, List.nodup_nil⟩
    intro pv hpv
    simp at hpv
  | step c c2 rest hne hlk hrest ih =>
    intro gc hgc
    obtain ⟨gp, gq, hgp, hgq, hlt⟩ := hE (c, c2) (mem_of_lookup_eq_some hlk)
    have hgp2 : g c = some gp := hgp
    have hgq2 : g c2 = some gq := hgq
    have hgpgc : gp = gc := by
      rw [hgc] at hgp2
      exact (Option.some.inj hgp2).symm
    obtain ⟨hbound, hnodup⟩ := ih gq hgq2
    constructor
    · intro pv hpv
      rcases List.mem_cons.mp hpv with rfl | hmem
      · exact ⟨gq, hgq2, by omega⟩
      · obtain ⟨gv, hgv, hlt2⟩ := hbound pv hmem
        exact ⟨gv, hgv, by omega⟩
    · simp only [List.map_cons]
      rw [List.nodup_cons]
      refine ⟨?_, hnodup⟩
      intro hc2mem
      obtain ⟨pv, hpv, hpveq⟩ := List.mem_map.mp hc2mem
      obtain ⟨gv, hgv, hlt2⟩ := hbound pv hpv
      rw [hpveq, hgq2] at hgv
      have := Option.some.inj hgv
      omega

theorem walk_chain (n : List (Point × Point)) (s : Point) :
    ∀ c pairs, Walk n s c pairs →
      List.Chain' (fun x y => (y, some x) ∈ pairs) (c :: pairs.map Prod.fst) := by
  intro c pairs hw
  induction hw with
  | stop => simp
  | step c c2 rest hne hlk hrest ih =>
    simp only [List.map_cons]
    rw [List.chain'_cons]
    constructor
    · exact List.mem_cons_self _ _
    · refine List.Chain'.imp ?_ ih
      intro x y hxy
      exact List.mem_cons_of_mem _ hxy

theorem walk_last (n : List (Point × Point)) (s : Point) :
    ∀ c pairs, Walk n s c pairs →
      (c :: pairs.map Prod.fst).getLast? = some s := by
  intro c pairs hw
  induction hw with
  | stop => exact List.getLast?_singleton s
  | step c c2 rest hne hlk hrest ih =>
    simp only [List.map_cons]
    rw [List.getLast?_cons_cons]
    exact ih

theorem lookup_eq_of_mem_nodup {β : Type} {m : List (Point × β)}
    (hnd : (m.map Prod.fst).Nodup) {k : Point} {v : β} (h : (k, v) ∈ m) :
    List.lookup k m = some v := by
  induction m with
  | nil => simp at h
  | cons a l ih =>
    obtain ⟨a1, a2⟩ := a
    simp only [List.map_cons, List.nodup_cons] at hnd
    rcases List.mem_cons.mp h with heq | hmem
    · injection heq with h1 h2
      subst h1
      subst h2
      exact lookup_cons_self k v l
    · by_cases hk : k = a1
      · exfalso
        apply hnd.1
        rw [← hk]
        exact List.mem_map_of_mem Prod.fst hmem
      · rw [lookup_cons_ne k a1 a2 l hk]
        exact ih hnd.2 hmem

theorem followValues_succ_some (m : List (Point × Option Point)) (fuel : Nat) (p q : Point)
    (h : List.lookup p m = some (some q)) :
    followValues m (fuel + 1) p = p :: followValues m fuel q := by
  simp only [followValues, h]

theorem followValues_of_chain (m : List (Point × Option Point)) :
    ∀ (rs : List Point) (x z : Point),
      List.Chain' (fun a b => List.lookup a m = some (some b)) (x :: rs) →
      (x :: rs).getLast? = some z → List.lookup z m = some none →
      followValues m (rs.length + 1) x = x :: rs := by
  intro rs
  induction rs with
  | nil =>
    intro x z hch hlast hz
    rw [List.getLast?_singleton] at hlast
    have hxz : x = z := Option.some.inj hlast
    subst hxz
    simp [followValues, hz]
  | cons b rs2 ih =>
    intro x z hch hlast hz
    rw [List.chain'_cons] at hch
    obtain ⟨hlk, hch2⟩ := hch
    rw [List.getLast?_cons_cons] at hlast
    rw [show ((b :: rs2).length + 1) = (rs2.length + 1) + 1 from rfl]
    rw [followValues_succ_some m (rs2.length + 1) x b hlk]
    rw [ih b z hch2 hlast hz]

/-- Structural characterization of a non-empty `_get_path` result: it is
the exit entry followed by the entries of a backward walk through the
final predecessor links, which satisfy the loop invariant. -/
theorem get_path_structure (maze_map : List (List Char)) (s e : Point) :
    _get_path maze_map s e = [] ∨
    ∃ pairs,
      LoopInv maze_map s e (astarLoop maze_map e (pathFuel maze_map) (initState s e)).1 ∧
      Walk (astarLoop maze_map e (pathFuel maze_map) (initState s e)).1.nbrs s e pairs ∧
      e ≠ s ∧
      (List.lookup e (astarLoop maze_map e (pathFuel maze_map) (initState s e)).1.nbrs).isSome ∧
      _get_path maze_map s e = (e, none) :: pairs := by
  have hinv : LoopInv maze_map s e (astarLoop maze_map e (pathFuel maze_map) (initState s e)).1 :=
    astarLoop_inv maze_map s e (pathFuel maze_map) (initState s e) (initState_inv maze_map s e)
  by_cases hkey :
      (List.lookup e (astarLoop maze_map e (pathFuel maze_map) (initState s e)).1.nbrs).isSome = true
  · right
    have hes : e ≠ s := by
      intro h2
      have h4 := hinv.start_not_key
      revert hkey
      generalize (astarLoop maze_map e (pathFuel maze_map) (initState s e)).1.nbrs = X at h4 ⊢
      intro hkey
      rw [h2, h4] at hkey
      cases hkey
    have hEweak : ∀ pq ∈ (astarLoop maze_map e (pathFuel maze_map) (initState s e)).1.nbrs,
        ∃ gp gq, (astarLoop maze_map e (pathFuel maze_map) (initState s e)).1.g pq.1 = some gp ∧
          (astarLoop maze_map e (pathFuel maze_map) (initState s e)).1.g pq.2 = some gq ∧ gq < gp ∧
          (pq.2 = s ∨
            (List.lookup pq.2 (astarLoop maze_map e (pathFuel maze_map) (initState s e)).1.nbrs).isSome) := by
      intro pq hpq
      obtain ⟨gp, gq, h1, h2, h3, h4, _, _⟩ := hinv.entries pq hpq
      exact ⟨gp, gq, h1, h2, h3, h4⟩
    obtain ⟨pairs, hw, hlen⟩ := walk_exists
      (astarLoop maze_map e (pathFuel maze_map) (initState s e)).1.nbrs s
      (astarLoop maze_map e (pathFuel maze_map) (initState s e)).1.g
      hinv.start_not_key hEweak
      ((astarLoop maze_map e (pathFuel maze_map) (initState s e)).1.nbrs.countP
        (fun pq => optLt ((astarLoop maze_map e (pathFuel maze_map) (initState s e)).1.g pq.1)
          ((astarLoop maze_map e (pathFuel maze_map) (initState s e)).1.g e)))
      e (Or.inr hkey) le_rfl
    have hlen2 : pairs.length ≤
        (astarLoop maze_map e (pathFuel maze_map) (initState s e)).1.nbrs.length + 1 := by
      refine le_trans hlen ?_
      have := List.countP_le_length
        (fun pq => optLt ((astarLoop maze_map e (pathFuel maze_map) (initState s e)).1.g pq.1)
          ((astarLoop maze_map e (pathFuel maze_map) (initState s e)).1.g e))
        (l := (astarLoop maze_map e (pathFuel maze_map) (initState s e)).1.nbrs)
      omega
    refine ⟨pairs, hinv, hw, hes, hkey, ?_⟩
    show _trace_path_from_exit (astarLoop maze_map e (pathFuel maze_map) (initState s e)).1.nbrs
      e s = (e, none) :: pairs
    unfold _trace_path_from_exit
    rw [if_pos hkey]
    rw [trace_go_of_walk _ s e pairs hw [(e, none)] _ hlen2]
    rfl
  · left
    show _trace_path_from_exit (astarLoop maze_map e (pathFuel maze_map) (initState s e)).1.nbrs
      e s = []
    unfold _trace_path_from_exit
    rw [if_neg hkey]

/-- C2 (amended): the map `_get_path` returns is either empty, or walking
from the STARTING point by repeatedly following the stored values visits
every entry of the map exactly once and terminates at the EXIT point,
whose stored value is the absent sentinel.  (The original claim walks from
the exit point toward the starting point, which fails immediately because
the exit is the entry holding the sentinel.) -/
theorem c2_predecessor_chain (maze_map : List (List Char)) (starting_point exit_point : Point) :
    _get_path maze_map starting_point exit_point = [] ∨
    (((_get_path maze_map starting_point exit_point).map Prod.fst).Nodup ∧
      (followValues (_get_path maze_map starting_point exit_point)
          (_get_path maze_map starting_point exit_point).length starting_point).Perm
        ((_get_path maze_map starting_point exit_point).map Prod.fst) ∧
      (followValues (_get_path maze_map starting_point exit_point)
          (_get_path maze_map starting_point exit_point).length starting_point).getLast? =
        some exit_point ∧
      List.lookup exit_point (_get_path maze_map starting_point exit_point) = some none) := by
  rcases get_path_structure maze_map starting_point exit_point with
    h0 | ⟨pairs, hinv, hw, hes, hkey, heq⟩
  · exact Or.inl h0
  right
  set st := (astarLoop maze_map exit_point (pathFuel maze_map)
    (initState starting_point exit_point)).1 with hst
  obtain ⟨ve, hlkv⟩ := Option.isSome_iff_exists.mp hkey
  obtain ⟨ge, gq0, hge, _, _, _, _, _⟩ :=
    hinv.entries (exit_point, ve) (mem_of_lookup_eq_some hlkv)
  have hge2 : st.g exit_point = some ge := hge
  have hEg : ∀ pq ∈ st.nbrs, ∃ gp gq, st.g pq.1 = some gp ∧ st.g pq.2 = some gq ∧ gq < gp := by
    intro pq hpq
    obtain ⟨gp, gq, h1, h2, h3, _, _, _⟩ := hinv.entries pq hpq
    exact ⟨gp, gq, h1, h2, h3⟩
  obtain ⟨hbound, hnodup⟩ :=
    walk_keys_bound st.nbrs starting_point st.g hEg exit_point pairs hw ge hge2
  have hMnodup : (((exit_point, none) :: pairs).map Prod.fst).Nodup := by
    simp only [List.map_cons]
    rw [List.nodup_cons]
    refine ⟨?_, hnodup⟩
    intro hemem
    obtain ⟨pv, hpv, hpveq⟩ := List.mem_map.mp hemem
    obtain ⟨gv, hgv, hlt2⟩ := hbound pv hpv
    rw [hpveq, hge2] at hgv
    have := Option.some.inj hgv
    omega
  have hch := walk_chain st.nbrs starting_point exit_point pairs hw
  have hch2 : List.Chain'
      (fun x y => List.lookup y ((exit_point, none) :: pairs) = some (some x))
      (exit_point :: pairs.map Prod.fst) := by
    refine List.Chain'.imp ?_ hch
    intro x y hxy
    exact lookup_eq_of_mem_nodup hMnodup (List.mem_cons_of_mem _ hxy)
  have hchrev : List.Chain'
      (fun a b => List.lookup a ((exit_point, none) :: pairs) = some (some b))
      ((exit_point :: pairs.map Prod.fst).reverse) := by
    rw [List.chain'_reverse]
    exact hch2
  have hlast := walk_last st.nbrs starting_point exit_point pairs hw
  cases hrev : (exit_point :: pairs.map Prod.fst).reverse with
  | nil =>
    exfalso
    have hc := congrArg List.length hrev
    simp at hc
  | cons x rs =>
    have hx : x = starting_point := by
      have h1 := List.head?_reverse (exit_point :: pairs.map Prod.fst)
      rw [hrev, hlast] at h1
      exact Option.some.inj h1
    have hz : (x :: rs).getLast? = some exit_point := by
      have h1 := List.getLast?_reverse (exit_point :: pairs.map Prod.fst)
      rw [hrev] at h1
      rw [h1]
      rfl
    rw [hrev] at hchrev
    have hfv := followValues_of_chain ((exit_point, none) :: pairs) rs x exit_point
      hchrev hz (lookup_cons_self exit_point none pairs)
    rw [hx] at hfv hz hrev
    have hlenrs : rs.length = pairs.length := by
      have hc := congrArg List.length hrev
      simp at hc
      omega
    have hlm2 : ((exit_point, none) :: pairs).length = rs.length + 1 := by
      simp [hlenrs]
    rw [heq]
    refine ⟨hMnodup, ?_, ?_, lookup_cons_self exit_point none pairs⟩
    · rw [hlm2, hfv]
      have hmf : ((exit_point, none) :: pairs).map Prod.fst =
          exit_point :: pairs.map Prod.fst := rfl
      rw [hmf, ← hrev]
      exact List.reverse_perm _
    · rw [hlm2, hfv]
      exact hz

/-- C10: every non-empty map `_get_path` returns contains both the
starting point and the exit point as keys, the exit point is the only key
mapped to the absent sentinel, every other key stores a value that is
itself a key at Manhattan distance exactly one, and every key except the
starting point is a traversable cell of the grid. -/
theorem c10_map_invariants (maze_map : List (List Char)) (starting_point exit_point : Point)
    (hrect : Rectangular maze_map) (hne : maze_map ≠ [])
    (hnonempty : _get_path maze_map starting_point exit_point ≠ []) :
    (∃ v, (starting_point, v) ∈ _get_path maze_map starting_point exit_point)
    ∧ (exit_point, none) ∈ _get_path maze_map starting_point exit_point
    ∧ (∀ pv ∈ _get_path maze_map starting_point exit_point, pv.2 = none → pv.1 = exit_point)
    ∧ (∀ pv ∈ _get_path maze_map starting_point exit_point, ∀ q : Point, pv.2 = some q →
        (∃ w, (q, w) ∈ _get_path maze_map starting_point exit_point) ∧
        _get_path_cost pv.1 q = 1)
    ∧ (∀ pv ∈ _get_path maze_map starting_point exit_point, pv.1 ≠ starting_point →
        _is_on_grid maze_map pv.1 = true) := by
  rcases get_path_structure maze_map starting_point exit_point with
    h0 | ⟨pairs, hinv, hw, hes, hkey, heq⟩
  · exact absurd h0 hnonempty
  set st := (astarLoop maze_map exit_point (pathFuel maze_map)
    (initState starting_point exit_point)).1 with hst
  rw [heq]
  have hEd : ∀ pq ∈ st.nbrs, _get_path_cost pq.1 pq.2 = 1 ∧
      (pq.2 = starting_point ∨ (List.lookup pq.2 st.nbrs).isSome) := by
    intro pq hpq
    obtain ⟨_, _, _, _, _, h4, h5, _⟩ := hinv.entries pq hpq
    exact ⟨h5, h4⟩
  have hfacts := walk_entry_facts st.nbrs starting_point hEd exit_point pairs hw
  refine ⟨?_, List.mem_cons_self _ _, ?_, ?_, ?_⟩
  · rcases walk_start_mem st.nbrs starting_point exit_point pairs hw with h1 | ⟨v, hv⟩
    · exact absurd h1 hes
    · exact ⟨v, List.mem_cons_of_mem _ hv⟩
  · intro pv hpv hnone
    rcases List.mem_cons.mp hpv with rfl | hmem
    · rfl
    · obtain ⟨q, hq⟩ := walk_values_some st.nbrs starting_point exit_point pairs hw pv hmem
      rw [hq] at hnone
      cases hnone
  · intro pv hpv q hq
    rcases List.mem_cons.mp hpv with rfl | hmem
    · cases hq
    · obtain ⟨⟨q2, hq2, hd2, hor2⟩, _⟩ := hfacts pv hmem
      rw [hq] at hq2
      have hqq2 : q = q2 := Option.some.inj hq2
      subst hqq2
      constructor
      · rcases hor2 with rfl | ⟨pv2, hpv2, rfl⟩
        · exact ⟨none, List.mem_cons_self _ _⟩
        · exact ⟨pv2.2, List.mem_cons_of_mem _ hpv2⟩
      · exact hd2
  · intro pv hpv hps
    rcases List.mem_cons.mp hpv with rfl | hmem
    · obtain ⟨ve, hlkv⟩ := Option.isSome_iff_exists.mp hkey
      obtain ⟨_, _, _, _, _, _, _, hgrid⟩ :=
        hinv.entries (exit_point, ve) (mem_of_lookup_eq_some hlkv)
      exact hgrid
    · obtain ⟨_, hor⟩ := hfacts pv hmem
      rcases hor with h1 | h1
      · exact absurd h1 hps
      · obtain ⟨w, hlkw⟩ := Option.isSome_iff_exists.mp h1
        obtain ⟨_, _, _, _, _, _, _, hgrid⟩ :=
          hinv.entries (pv.1, w) (mem_of_lookup_eq_some hlkw)
        exact hgrid

/-! ### Termination of the search loop -/

/-- All points the relaxation step can ever touch: the box given by the
row count and the length of row 0 (the bounds `_is_on_grid` checks). -/
def boxPoints (maze_map : List (List Char)) : List Point :=
  (List.range maze_map.length).flatMap
    (fun i => (List.range (maze_map.headD []).length).map (fun j => (Int.ofNat i, Int.ofNat j)))

theorem boxPoints_nodup (maze_map : List (List Char)) : (boxPoints maze_map).Nodup := by
  unfold boxPoints
  rw [List.nodup_flatMap]
  constructor
  · intro i _
    refine List.Nodup.map ?_ (List.nodup_range _)
    intro a b hab
    have h2 : Int.ofNat a = Int.ofNat b := congrArg Prod.snd hab
    exact Int.ofNat.inj h2
  · refine List.Pairwise.imp ?_ (List.pairwise_lt_range _)
    intro a b hab x hx1 hx2
    obtain ⟨j1, _, hj1⟩ := List.mem_map.mp hx1
    obtain ⟨j2, _, hj2⟩ := List.mem_map.mp hx2
    have h1 : Int.ofNat a = x.1 := congrArg Prod.fst hj1
    have h2 : Int.ofNat b = x.1 := congrArg Prod.fst hj2
    have h3 : Int.ofNat a = Int.ofNat b := by rw [h1, h2]
    have hab2 := Int.ofNat.inj h3
    omega

theorem mem_boxPoints (maze_map : List (List Char)) (p : Point)
    (h : _is_on_grid maze_map p = true) : p ∈ boxPoints maze_map := by
  unfold _is_on_grid at h
  simp only [Bool.and_eq_true, decide_eq_true_eq] at h
  obtain ⟨⟨⟨⟨h1, h2⟩, h3⟩, h4⟩, -⟩ := h
  unfold boxPoints
  rw [List.mem_flatMap]
  refine ⟨p.1.toNat, ?_, ?_⟩
  · rw [List.mem_range]
    omega
  · rw [List.mem_map]
    refine ⟨p.2.toNat, ?_, ?_⟩
    · rw [List.mem_range]
      omega
    · obtain ⟨p1, p2⟩ := p
      simp only at h1 h3 ⊢
      have e1 : Int.ofNat p1.toNat = p1 := Int.toNat_of_nonneg h1
      have e2 : Int.ofNat p2.toNat = p2 := Int.toNat_of_nonneg h3
      rw [e1, e2]

/-- First termination measure: box points whose f-score is still infinite. -/
def mu1 (maze_map : List (List Char)) (st : AState) : Nat :=
  (boxPoints maze_map).countP (fun p => (st.f p).isNone)

/-- Second termination measure: total of the finite f-scores over the box. -/
def mu2 (maze_map : List (List Char)) (st : AState) : Nat :=
  ((boxPoints maze_map).map (fun p => (st.f p).getD 0)).sum

/-- Lexicographic order on the first two measures. -/
def measLt (a b : Nat × Nat) : Prop := a.1 < b.1 ∨ (a.1 = b.1 ∧ a.2 < b.2)

theorem measLt_trans {a b c : Nat × Nat} (h1 : measLt a b) (h2 : measLt b c) : measLt a c := by
  unfold measLt at h1 h2 ⊢
  omega

theorem countP_override_none (D : List Point) (f : Point → Option Nat) (p : Point) (v : Nat) :
    ∀ (hD : D.Nodup), p ∈ D → f p = none →
      D.countP (fun q => (if q = p then some v else f q).isNone) <
        D.countP (fun q => (f q).isNone) := by
  induction D with
  | nil =>
    intro _ hp
    simp at hp
  | cons a D ih =>
    intro hD hp hnone
    rw [List.countP_cons, List.countP_cons]
    rw [List.nodup_cons] at hD
    rcases List.mem_cons.mp hp with rfl | hmem
    · simp only [if_pos rfl, hnone, Option.isNone_some, Option.isNone_none]
      have heq : D.countP (fun q => (if q = p then some v else f q).isNone) =
          D.countP (fun q => (f q).isNone) := by
        apply List.countP_congr
        intro q hq
        have hqp : ¬ (q = p) := fun h => hD.1 (h ▸ hq)
        rw [if_neg hqp]
      rw [heq]
      simp
    · have hap : a ≠ p := fun h => hD.1 (h ▸ hmem)
      rw [if_neg hap]
      have := ih hD.2 hmem hnone
      omega

theorem countP_override_some (D : List Point) (f : Point → Option Nat) (p : Point) (v b : Nat)
    (hsome : f p = some b) :
    D.countP (fun q => (if q = p then some v else f q).isNone) =
      D.countP (fun q => (f q).isNone) := by
  apply List.countP_congr
  intro q _
  by_cases hq : q = p
  · subst hq
    rw [if_pos rfl, hsome]
    simp
  · rw [if_neg hq]

theorem sum_override_lt (D : List Point) (f : Point → Option Nat) (p : Point) (v b : Nat) :
    ∀ (hD : D.Nodup), p ∈ D → f p = some b → v < b →
      ((D.map (fun q => (if q = p then some v else f q).getD 0)).sum <
        (D.map (fun q => (f q).getD 0)).sum) := by
  induction D with
  | nil =>
    intro _ hp
    simp at hp
  | cons a D ih =>
    intro hD hp hsome hv
    rw [List.map_cons, List.map_cons, List.sum_cons, List.sum_cons]
    rw [List.nodup_cons] at hD
    rcases List.mem_cons.mp hp with rfl | hmem
    · rw [if_pos rfl, hsome]
      have heq : (D.map (fun q => (if q = p then some v else f q).getD 0)).sum =
          (D.map (fun q => (f q).getD 0)).sum := by
        congr 1
        apply List.map_congr_left
        intro q hq
        have hqp : ¬ (q = p) := fun h => hD.1 (h ▸ hq)
        rw [if_neg hqp]
      rw [heq]
      simp only [Option.getD_some]
      omega
    · have hap : a ≠ p := fun h => hD.1 (h ▸ hmem)
      rw [if_neg hap]
      have := ih hD.2 hmem hsome hv
      omega

theorem relaxOne_measure (maze_map : List (List Char)) (e cur np : Point) (st : AState)
    (hgrid : _is_on_grid maze_map np = true) :
    relaxOne e cur st np = st ∨
    measLt (mu1 maze_map (relaxOne e cur st np), mu2 maze_map (relaxOne e cur st np))
      (mu1 maze_map st, mu2 maze_map st) := by
  rcases relaxOne_cases e cur st np with heq | ⟨gc, hgc, hguard, hupd⟩
  · exact Or.inl heq
  · right
    rw [hupd]
    cases hf : st.f np with
    | none =>
      left
      show mu1 maze_map _ < mu1 maze_map st
      unfold mu1
      exact countP_override_none (boxPoints maze_map) st.f np (gc + 1 + _get_path_cost np e)
        (boxPoints_nodup maze_map) (mem_boxPoints maze_map np hgrid) hf
    | some b =>
      right
      have hlt : gc + 1 + _get_path_cost np e < b := by
        rw [hf, ltInf_some_iff] at hguard
        exact hguard
      constructor
      · show mu1 maze_map _ = mu1 maze_map st
        unfold mu1
        exact countP_override_some (boxPoints maze_map) st.f np (gc + 1 + _get_path_cost np e) b hf
      · show mu2 maze_map _ < mu2 maze_map st
        unfold mu2
        exact sum_override_lt (boxPoints maze_map) st.f np (gc + 1 + _get_path_cost np e) b
          (boxPoints_nodup maze_map) (mem_boxPoints maze_map np hgrid) hf hlt

theorem foldl_relax_measure (maze_map : List (List Char)) (e cur : Point) :
    ∀ (l : List Point) (st : AState), (∀ np ∈ l, _is_on_grid maze_map np = true) →
      l.foldl (relaxOne e cur) st = st ∨
      measLt (mu1 maze_map (l.foldl (relaxOne e cur) st),
          mu2 maze_map (l.foldl (relaxOne e cur) st))
        (mu1 maze_map st, mu2 maze_map st) := by
  intro l
  induction l with
  | nil =>
    intro st _
    exact Or.inl rfl
  | cons np l ih =>
    intro st hl
    rw [List.foldl_cons]
    rcases relaxOne_measure maze_map e cur np st (hl np (List.mem_cons_self _ _)) with heq | hlt
    · rw [heq]
      exact ih st (fun np2 h => hl np2 (List.mem_cons_of_mem _ h))
    · rcases ih (relaxOne e cur st np) (fun np2 h => hl np2 (List.mem_cons_of_mem _ h)) with
        heq2 | hlt2
      · rw [heq2]
        exact Or.inr hlt
      · exact Or.inr (measLt_trans hlt2 hlt)

theorem popMin_rest_length {q : List Entry} {ent : Entry} {rest : List Entry}
    (h : popMin q = some (ent, rest)) : rest.length + 1 = q.length := by
  unfold popMin at h
  cases q with
  | nil => cases h
  | cons a as =>
    simp only [Option.some.injEq, Prod.mk.injEq] at h
    obtain ⟨h1, h2⟩ := h
    have hmem := foldl_min_mem a as
    rw [h1] at hmem
    rw [h1] at h2
    rw [← h2, List.length_erase_of_mem hmem]
    simp only [List.length_cons]
    omega

theorem astarLoop_term (maze_map : List (List Char)) (e : Point) :
    ∀ (n1 n2 n3 : Nat) (st : AState), mu1 maze_map st = n1 → mu2 maze_map st = n2 →
      st.queue.length = n3 → ∃ fuel, (astarLoop maze_map e fuel st).2 = true := by
  intro n1
  induction n1 using Nat.strong_induction_on with
  | _ n1 ih1 =>
  intro n2
  induction n2 using Nat.strong_induction_on with
  | _ n2 ih2 =>
  intro n3
  induction n3 using Nat.strong_induction_on with
  | _ n3 ih3 =>
  intro st h1 h2 h3
  cases hpop : popMin st.queue with
  | none =>
    refine ⟨1, ?_⟩
    simp only [astarLoop, hpop]
  | some pr =>
    obtain ⟨ent, rest⟩ := pr
    by_cases hexit : ent.2.2 = e
    · refine ⟨1, ?_⟩
      simp only [astarLoop, hpop]
      rw [if_pos hexit]
    · set stf := (_get_neighbors maze_map ent.2.2).foldl (relaxOne e ent.2.2)
        { st with queue := rest } with hstf
      have hstep : ∀ fuel : Nat,
          astarLoop maze_map e (fuel + 1) st = astarLoop maze_map e fuel stf := by
        intro fuel
        rw [hstf]
        simp only [astarLoop, hpop]
        rw [if_neg hexit]
      have hql : rest.length + 1 = st.queue.length := popMin_rest_length hpop
      have hq1 : mu1 maze_map { st with queue := rest } = mu1 maze_map st := rfl
      have hq2 : mu2 maze_map { st with queue := rest } = mu2 maze_map st := rfl
      have hgrids : ∀ np ∈ _get_neighbors maze_map ent.2.2, _is_on_grid maze_map np = true :=
        fun np hnp => (get_neighbors_spec maze_map ent.2.2 np hnp).1
      rcases foldl_relax_measure maze_map e ent.2.2 (_get_neighbors maze_map ent.2.2)
        { st with queue := rest } hgrids with heqf | hltf
      · obtain ⟨fuel, hfuel⟩ := ih3 rest.length (by omega) stf
          (by rw [hstf, heqf, hq1]; exact h1)
          (by rw [hstf, heqf, hq2]; exact h2)
          (by rw [hstf, heqf])
        refine ⟨fuel + 1, ?_⟩
        rw [hstep fuel]
        exact hfuel
      · rw [hq1, hq2] at hltf
        rw [← hstf] at hltf
        unfold measLt at hltf
        rcases hltf with hm1 | ⟨hm1eq, hm2⟩
        · obtain ⟨fuel, hfuel⟩ := ih1 (mu1 maze_map stf) (by omega) (mu2 maze_map stf)
            stf.queue.length stf rfl rfl rfl
          refine ⟨fuel + 1, ?_⟩
          rw [hstep fuel]
          exact hfuel
        · obtain ⟨fuel, hfuel⟩ := ih2 (mu2 maze_map stf) (by omega) stf.queue.length stf
            (by omega) rfl rfl
          refine ⟨fuel + 1, ?_⟩
          rw [hstep fuel]
          exact hfuel

/-- C8: the A* search loop of `_get_path` terminates after finitely many
iterations on every non-empty rectangular grid: some finite fuel lets the
fueled loop finish by popping the exit point or exhausting the frontier,
never by running out of fuel. -/
theorem c8_search_terminates (maze_map : List (List Char)) (starting_point exit_point : Point)
    (hrect : Rectangular maze_map) (hne : maze_map ≠ []) :
    ∃ fuel,
      (astarLoop maze_map exit_point fuel (initState starting_point exit_point)).2 = true :=
  astarLoop_term maze_map exit_point
    (mu1 maze_map (initState starting_point exit_point))
    (mu2 maze_map (initState starting_point exit_point))
    (initState starting_point exit_point).queue.length
    (initState starting_point exit_point) rfl rfl rfl

/-! ### Concrete witnesses -/

theorem c4_budget_filter_inclusive_witness :
    ∃ L, find_paths mazeA 5 = Except.ok L ∧ _get_path mazeA (5, 6) (0, 6) ∈ L := by
  obtain ⟨L, hok, hiff⟩ :=
    c4_budget_filter_inclusive mazeA 5 (5, 6) (0, 6) (by decide) (by decide) (by decide)
  exact ⟨L, hok, hiff.mpr (by decide)⟩

theorem c5_missing_marker_witness :
    _get_openings mazeNoStart START = Except.error "Maze not solvable: Missing ^" ∧
    find_paths mazeNoStart 100 = Except.error "Maze not solvable: Missing ^" := by
  have h := c5_missing_marker mazeNoStart START (by decide) (by decide)
  have herr := h.1.mpr (by decide)
  have hstr : ("Maze not solvable: Missing " ++ START.toString) =
      "Maze not solvable: Missing ^" := by decide
  rw [hstr] at herr
  exact ⟨herr, h.2.2 "Maze not solvable: Missing ^" 100 herr⟩

theorem c6_budget_monotone_witness :
    ∃ L2, find_paths mazeA 10 = Except.ok L2 ∧ ∀ p ∈ [bpA], p ∈ L2 := by
  exact c6_budget_monotone mazeA 5 10 (by decide) [bpA] (by decide)

theorem c7_render_frame_witness :
    (rendA.getD 1 []).getD 6 '#' = VISITED ∧
    (rendA.getD 1 []).getD 1 '#' = (mazeA.getD 1 []).getD 1 '#' := by
  have h := c7_render_frame mazeA 38 bpA rendA (by decide)
  constructor
  · rw [h.2.2.1 1 6 (by decide) (by decide)]
    decide
  · rw [h.2.2.1 1 1 (by decide) (by decide)]
    decide

theorem c8_search_terminates_witness :
    ∃ fuel, (astarLoop mazeA ((1 : Int), (6 : Int)) fuel
      (initState ((4 : Int), (6 : Int)) ((1 : Int), (6 : Int)))).2 = true :=
  c8_search_terminates mazeA (4, 6) (1, 6) (by decide) (by decide)

theorem c9_coincident_pair_witness :
    _get_path mazeA ((4 : Int), (6 : Int)) ((4 : Int), (6 : Int)) = [] :=
  (c9_coincident_pair mazeA (4, 6) (by decide) (by decide)).1

theorem c10_map_invariants_witness :
    (((1 : Int), (6 : Int)), (none : Option Point)) ∈ _get_path mazeA (4, 6) (1, 6) ∧
    ∃ v, (((4 : Int), (6 : Int)), v) ∈ _get_path mazeA (4, 6) (1, 6) := by
  have h := c10_map_invariants mazeA (4, 6) (1, 6) (by decide) (by decide) (by decide)
  exact ⟨h.2.1, h.1⟩
